import Mathlib

/-!
Verification of the hybrid RSA+AES encryption core of comfyui-encrypt
(src/rsa_encrypt.py) against its specification.

The Python source glues together primitives of the cryptography library
(RSA-OAEP key wrapping, the AES block cipher) with its own binary logic
(PKCS#7 padding, CBC chaining via the library, wire-format concatenation
and slicing, padding stripping).  The embedding below keeps the library
primitives abstract — a structure field for each primitive together with
the contract the library guarantees — and translates the program's own
logic literally.  Byte strings are lists of naturals; the random values
drawn inside a call (AES key, IV, OAEP seed) are made explicit arguments.
-/

set_option maxRecDepth 8192

namespace RsaEncrypt

/-- Byte strings are modelled as lists of naturals (one entry per byte). -/
abbrev Bytes := List Nat

/-- Bytewise XOR of two byte strings, used by CBC block chaining. -/
def xorBytes (a b : Bytes) : Bytes := List.zipWith Nat.xor a b

/-- Abstract model of the AES block cipher supplied by the cryptography
library (algorithms.AES): a keyed permutation on 16-byte blocks.  The two
laws are the library's contract: enciphering a 16-byte block yields a
16-byte block, and deciphering inverts enciphering under the same key. -/
structure BlockCipher where
  enc : Bytes → Bytes → Bytes
  dec : Bytes → Bytes → Bytes
  enc_len : ∀ k b, b.length = 16 → (enc k b).length = 16
  dec_enc : ∀ k b, b.length = 16 → dec k (enc k b) = b

/-- Fuel-indexed CBC encryption, structurally recursive so that concrete
payloads evaluate inside the kernel.  The fuel only bounds the number of
blocks processed; cbcEnc supplies the message length, which always
suffices because every step consumes at least one byte. -/
def cbcEncAux (C : BlockCipher) (k : Bytes) : Nat → Bytes → Bytes → Bytes
  | 0, _, _ => []
  | fuel + 1, prev, m =>
    if m = [] then []
    else
      C.enc k (xorBytes (m.take 16) prev) ++
        cbcEncAux C k fuel (C.enc k (xorBytes (m.take 16) prev)) (m.drop 16)

/-- CBC-mode encryption over an abstract block cipher, as performed by
modes.CBC of the cryptography library: each 16-byte plaintext block is
XORed with the previous ciphertext block (initially the IV) and then
enciphered; the resulting ciphertext block becomes the next chain value. -/
def cbcEnc (C : BlockCipher) (k prev m : Bytes) : Bytes :=
  cbcEncAux C k m.length prev m

/-- Fuel-indexed CBC decryption, structurally recursive for the same
reason as cbcEncAux. -/
def cbcDecAux (C : BlockCipher) (k : Bytes) : Nat → Bytes → Bytes → Bytes
  | 0, _, _ => []
  | fuel + 1, prev, c =>
    if c = [] then []
    else
      xorBytes (C.dec k (c.take 16)) prev ++ cbcDecAux C k fuel (c.take 16) (c.drop 16)

/-- CBC-mode decryption over an abstract block cipher: each 16-byte
ciphertext block is deciphered and XORed with the previous ciphertext
block (initially the IV). -/
def cbcDec (C : BlockCipher) (k prev c : Bytes) : Bytes :=
  cbcDecAux C k c.length prev c

/-- Abstract model of one RSA keypair, as produced by generate_rsa_keypair
and later loaded with load_pem_public_key / load_pem_private_key.  wrap
models public_key.encrypt with OAEP(MGF1-SHA256, SHA256) padding — its
second argument is the random OAEP seed the library draws internally —
and unwrap models private_key.decrypt with the same padding, returning
none when OAEP unwrapping fails.  keyBits is the modulus size reported by
private_key.key_size.  The laws are the RSA-OAEP contract for a matching
keypair: a wrapped message occupies exactly the modulus size in bytes,
and unwrapping a wrap of a 32-byte message (the only size this program
ever wraps) recovers that message. -/
structure RSAKeypair where
  keyBits : Nat
  wrap : Bytes → Bytes → Bytes
  unwrap : Bytes → Option Bytes
  wrap_length : ∀ m s, (wrap m s).length = keyBits / 8
  unwrap_wrap : ∀ m s, m.length = 32 → unwrap (wrap m s) = some m

/-- PKCS#7 padding amount computed in encrypt_bytes:
padding_length = 16 - (len(data) % 16). -/
def paddingLength (data : Bytes) : Nat := 16 - data.length % 16

/-- The padded plaintext built in encrypt_bytes:
padded_data = data + bytes([padding_length] * padding_length). -/
def pkcs7pad (data : Bytes) : Bytes :=
  data ++ List.replicate (paddingLength data) (paddingLength data)

/-- Shallow embedding of encrypt_bytes.  The AES key, the IV and the OAEP
seed are the random values drawn during the call (os.urandom(32),
os.urandom(16), and the library's internal OAEP randomness), made
explicit as arguments.  The result is the wire payload
encrypted_aes_key + iv + encrypted_data. -/
def encrypt_bytes (pub : RSAKeypair) (C : BlockCipher)
    (aes_key iv oaep_seed : Bytes) (data : Bytes) : Bytes :=
  let encrypted_aes_key := pub.wrap aes_key oaep_seed
  let padded_data := pkcs7pad data
  let encrypted_data := cbcEnc C aes_key iv padded_data
  encrypted_aes_key ++ iv ++ encrypted_data

/-- Python byte-string slice x[:-n].  For n = 0 the slice is x[:0] = b"";
for n > 0 it is the first len(x) - n bytes, empty when n ≥ len(x). -/
def sliceToNeg (x : Bytes) (n : Nat) : Bytes :=
  if n = 0 then [] else x.take (x.length - n)

/-- Shallow embedding of decrypt_bytes.  key_size is derived from the
private key's modulus size alone (key_bits // 8) and the payload is split
by slicing.  The none cases model the exceptions the cryptography library
raises: OAEP failure in private_key.decrypt, an unwrapped key whose length
is not a legal AES key size (rejected by algorithms.AES), an IV that is
not 16 bytes (rejected by modes.CBC), a ciphertext that is not a multiple
of the block size (rejected by decryptor.finalize), and the IndexError
from padded_plaintext[-1] on an empty byte string.  The padding strip
itself performs no validation, exactly as in the source: it reads the
last byte and slices it off with padded_plaintext[:-padding_length]. -/
def decrypt_bytes (priv : RSAKeypair) (C : BlockCipher)
    (encrypted_data : Bytes) : Option Bytes :=
  let key_size := priv.keyBits / 8
  let iv_size := 16
  let encrypted_aes_key := encrypted_data.take key_size
  let iv := (encrypted_data.drop key_size).take iv_size
  let ciphertext := encrypted_data.drop (key_size + iv_size)
  match priv.unwrap encrypted_aes_key with
  | none => none
  | some aes_key =>
    if aes_key.length = 16 ∨ aes_key.length = 24 ∨ aes_key.length = 32 then
      if iv.length = 16 then
        if ciphertext.length % 16 = 0 then
          let padded_plaintext := cbcDec C aes_key iv ciphertext
          match padded_plaintext.getLast? with
          | none => none
          | some padding_length => some (sliceToNeg padded_plaintext padding_length)
        else none
      else none
    else none

/-- Model of the PIL library as _ensure_bytes uses it: pngSave is
obj.save(buf, format="PNG") followed by buf.getvalue(), pngLoad is
Image.open on a byte buffer (none when the buffer is not a valid image).
The law is PNG losslessness: loading a saved image recovers it. -/
structure PILModel (Img : Type) where
  pngSave : Img → Bytes
  pngLoad : Bytes → Option Img
  load_save : ∀ i, pngLoad (pngSave i) = some i

/-- Model of a Python value passed to _ensure_bytes: a bytes object, a
PIL.Image.Image, or any other object. -/
inductive PyPayload (Img : Type) (Other : Type) where
  | raw (b : Bytes)
  | image (i : Img)
  | other (o : Other)

/-- Python exception raised by _ensure_bytes for unsupported payloads:
typeError stands for TypeError with the message that the input must be
bytes or PIL.Image.Image. -/
inductive PyExn where
  | typeError

/-- Shallow embedding of _ensure_bytes: bytes are returned unchanged, a
PIL Image is serialized to PNG, and anything else raises TypeError,
modelled as the error branch of Except. -/
def ensure_bytes {Img Other : Type} (L : PILModel Img) :
    PyPayload Img Other → Except PyExn Bytes
  | PyPayload.raw b => Except.ok b
  | PyPayload.image i => Except.ok (L.pngSave i)
  | PyPayload.other _ => Except.error PyExn.typeError

/-- Model of the file-system state seen through Python's built-in open:
a partial map from paths to file contents, plus, for each path, whether
the directory that would contain it exists.  Opening a path for writing
("wb") truncates or creates the file when its parent directory exists and
raises FileNotFoundError otherwise — open never creates directories. -/
structure FileSystem (P : Type) where
  files : P → Option Bytes
  parentExists : P → Bool

/-- Python open(p, "wb") followed by f.write(content): fails (none) when
the parent directory of p does not exist, otherwise replaces the contents
of p and leaves every other file unchanged. -/
def pyWriteFile {P : Type} [DecidableEq P] (fs : FileSystem P) (p : P)
    (content : Bytes) : Option (FileSystem P) :=
  if fs.parentExists p then
    some { files := fun q => if q = p then some content else fs.files q,
           parentExists := fs.parentExists }
  else none

/-- Shallow embedding of encrypt_file: open(in_path, "rb").read() reads
the whole file (none models IOError when it is absent), the contents are
encrypted with encrypt_bytes, and the result is written with
open(out_path, "wb").  No directory creation is performed. -/
def encrypt_file {P : Type} [DecidableEq P] (pub : RSAKeypair) (C : BlockCipher)
    (aes_key iv oaep_seed : Bytes) (fs : FileSystem P)
    (in_path out_path : P) : Option (FileSystem P) :=
  match fs.files in_path with
  | none => none
  | some data => pyWriteFile fs out_path (encrypt_bytes pub C aes_key iv oaep_seed data)

/-- Serialization encodings of the cryptography library used by
generate_rsa_keypair. -/
inductive Encoding where
  | PEM
  | DER

/-- Private-key serialization formats of the cryptography library. -/
inductive PrivateFormat where
  | PKCS8
  | TraditionalOpenSSL

/-- Private-key encryption algorithms of the cryptography library. -/
inductive KeyEncryption where
  | NoEncryption
  | BestAvailableEncryption

/-- Public-key serialization formats of the cryptography library. -/
inductive PublicFormat where
  | SubjectPublicKeyInfo
  | PKCS1

/-- Abstract model of the RSA key-generation and serialization API of the
cryptography library: generatePrivateKey takes the public exponent and the
key size in bits, publicKey derives the public key, and the two
serializers render a key under a chosen encoding, format and (for private
keys) encryption algorithm. -/
structure RSASerialization (Priv Pub : Type) where
  generatePrivateKey : Nat → Nat → Priv
  publicKey : Priv → Pub
  privateBytes : Priv → Encoding → PrivateFormat → KeyEncryption → Bytes
  publicBytes : Pub → Encoding → PublicFormat → Bytes

/-- Shallow embedding of generate_rsa_keypair: generate a private key with
public exponent 65537 and the requested size, serialize it as
PEM/PKCS8/NoEncryption, derive the public key and serialize it as
PEM/SubjectPublicKeyInfo, and return (private_pem, public_pem). -/
def generate_rsa_keypair {Priv Pub : Type} (L : RSASerialization Priv Pub)
    (key_size : Nat) : Bytes × Bytes :=
  let private_key := L.generatePrivateKey 65537 key_size
  let private_pem := L.privateBytes private_key Encoding.PEM PrivateFormat.PKCS8
    KeyEncryption.NoEncryption
  let public_key := L.publicKey private_key
  let public_pem := L.publicBytes public_key Encoding.PEM
    PublicFormat.SubjectPublicKeyInfo
  (private_pem, public_pem)

/-- Trivial block cipher instance used to evaluate the embedding on
concrete inputs: every block is its own ciphertext. -/
def idCipher : BlockCipher where
  enc := fun _ b => b
  dec := fun _ b => b
  enc_len := fun _ _ h => h
  dec_enc := fun _ _ _ => rfl

/-- Concrete 2048-bit keypair instance used to evaluate the embedding on
concrete inputs: wrapping right-pads the 32-byte message with zeros to the
256-byte modulus size and unwrapping takes the first 32 bytes back. -/
def testKey : RSAKeypair where
  keyBits := 2048
  wrap := fun m _ => (m ++ List.replicate 256 0).take 256
  unwrap := fun c => some (c.take 32)
  wrap_length := by
    intro m s
    simp only [List.length_take, List.length_append, List.length_replicate]
    omega
  unwrap_wrap := by
    intro m s h
    show some (List.take 32 (List.take 256 (m ++ List.replicate 256 0))) = some m
    rw [List.take_take, show min 32 256 = 32 from by norm_num]
    rw [List.take_append_of_le_length (by omega)]
    rw [← h, List.take_length]

/-! Helper lemmas about XOR, CBC chaining and PKCS#7 padding. -/

theorem length_xorBytes (a b : Bytes) :
    (xorBytes a b).length = min a.length b.length := by
  simp [xorBytes]

theorem xorBytes_cancel : ∀ (a b : Bytes), a.length ≤ b.length →
    xorBytes (xorBytes a b) b = a := by
  intro a
  induction a with
  | nil => intro b _; rfl
  | cons x xs ih =>
    intro b hb
    cases b with
    | nil => simp at hb
    | cons y ys =>
      simp only [xorBytes, List.zipWith_cons_cons] at *
      simp only [List.length_cons] at hb
      have hx : (x.xor y).xor y = x := Nat.xor_cancel_right y x
      rw [hx, ih ys (by omega)]

theorem cbcEncAux_nil (C : BlockCipher) (k : Bytes) (fuel : Nat) (prev : Bytes) :
    cbcEncAux C k fuel prev [] = [] := by
  cases fuel <;> simp [cbcEncAux]

theorem cbcEncAux_fuel (C : BlockCipher) (k : Bytes) :
    ∀ (f1 f2 : Nat) (prev m : Bytes), m.length ≤ f1 → m.length ≤ f2 →
      cbcEncAux C k f1 prev m = cbcEncAux C k f2 prev m := by
  intro f1
  induction f1 with
  | zero =>
    intro f2 prev m h1 _
    have hm : m = [] := List.length_eq_zero.mp (by omega)
    subst hm
    rw [cbcEncAux_nil, cbcEncAux_nil]
  | succ f ih =>
    intro f2 prev m h1 h2
    by_cases hm : m = []
    · subst hm; rw [cbcEncAux_nil, cbcEncAux_nil]
    · have h0 : 0 < m.length := List.length_pos.mpr hm
      cases f2 with
      | zero => omega
      | succ f2a =>
        simp only [cbcEncAux, if_neg hm]
        congr 1
        apply ih
        · simp only [List.length_drop]; omega
        · simp only [List.length_drop]; omega

theorem cbcEnc_nil (C : BlockCipher) (k prev : Bytes) :
    cbcEnc C k prev [] = [] := rfl

theorem cbcEnc_ne_nil (C : BlockCipher) (k prev m : Bytes) (h : m ≠ []) :
    cbcEnc C k prev m =
      C.enc k (xorBytes (m.take 16) prev) ++
        cbcEnc C k (C.enc k (xorBytes (m.take 16) prev)) (m.drop 16) := by
  have h0 : 0 < m.length := List.length_pos.mpr h
  rw [cbcEnc, cbcEnc]
  rw [show m.length = (m.length - 1) + 1 from by omega]
  simp only [cbcEncAux, if_neg h]
  congr 1
  apply cbcEncAux_fuel
  · simp only [List.length_drop]; omega
  · exact le_refl _

theorem cbcDecAux_nil (C : BlockCipher) (k : Bytes) (fuel : Nat) (prev : Bytes) :
    cbcDecAux C k fuel prev [] = [] := by
  cases fuel <;> simp [cbcDecAux]

theorem cbcDecAux_fuel (C : BlockCipher) (k : Bytes) :
    ∀ (f1 f2 : Nat) (prev c : Bytes), c.length ≤ f1 → c.length ≤ f2 →
      cbcDecAux C k f1 prev c = cbcDecAux C k f2 prev c := by
  intro f1
  induction f1 with
  | zero =>
    intro f2 prev c h1 _
    have hc : c = [] := List.length_eq_zero.mp (by omega)
    subst hc
    rw [cbcDecAux_nil, cbcDecAux_nil]
  | succ f ih =>
    intro f2 prev c h1 h2
    by_cases hc : c = []
    · subst hc; rw [cbcDecAux_nil, cbcDecAux_nil]
    · have h0 : 0 < c.length := List.length_pos.mpr hc
      cases f2 with
      | zero => omega
      | succ f2a =>
        simp only [cbcDecAux, if_neg hc]
        congr 1
        apply ih
        · simp only [List.length_drop]; omega
        · simp only [List.length_drop]; omega

theorem cbcDec_nil (C : BlockCipher) (k prev : Bytes) :
    cbcDec C k prev [] = [] := rfl

theorem cbcDec_ne_nil (C : BlockCipher) (k prev c : Bytes) (h : c ≠ []) :
    cbcDec C k prev c =
      xorBytes (C.dec k (c.take 16)) prev ++ cbcDec C k (c.take 16) (c.drop 16) := by
  have h0 : 0 < c.length := List.length_pos.mpr h
  rw [cbcDec, cbcDec]
  rw [show c.length = (c.length - 1) + 1 from by omega]
  simp only [cbcDecAux, if_neg h]
  congr 1
  apply cbcDecAux_fuel
  · simp only [List.length_drop]; omega
  · exact le_refl _

theorem cbcEnc_length (C : BlockCipher) (k : Bytes) :
    ∀ (n : Nat) (m prev : Bytes), m.length = n → prev.length = 16 →
      m.length % 16 = 0 → (cbcEnc C k prev m).length = m.length := by
  intro n
  induction n using Nat.strong_induction_on with
  | _ n ih =>
    intro m prev hn hprev hmod
    by_cases hm : m = []
    · subst hm; simp [cbcEnc_nil]
    · have h0 : 0 < m.length := List.length_pos.mpr hm
      have h16 : 16 ≤ m.length := by omega
      have htake : (m.take 16).length = 16 := by
        simp [List.length_take]; omega
      have hxor : (xorBytes (m.take 16) prev).length = 16 := by
        rw [length_xorBytes, htake, hprev]; simp
      have hc : (C.enc k (xorBytes (m.take 16) prev)).length = 16 :=
        C.enc_len _ _ hxor
      rw [cbcEnc_ne_nil C k prev m hm]
      rw [List.length_append, hc]
      have hdroplen : (m.drop 16).length = m.length - 16 := by
        simp [List.length_drop]
      have hrec : (cbcEnc C k (C.enc k (xorBytes (m.take 16) prev)) (m.drop 16)).length
          = (m.drop 16).length := by
        apply ih (m.drop 16).length (by omega) _ _ rfl hc
        omega
      rw [hrec]
      omega

theorem cbcDec_cbcEnc (C : BlockCipher) (k : Bytes) :
    ∀ (n : Nat) (m prev : Bytes), m.length = n → prev.length = 16 →
      m.length % 16 = 0 → cbcDec C k prev (cbcEnc C k prev m) = m := by
  intro n
  induction n using Nat.strong_induction_on with
  | _ n ih =>
    intro m prev hn hprev hmod
    by_cases hm : m = []
    · subst hm; simp [cbcEnc_nil, cbcDec_nil]
    · have h0 : 0 < m.length := List.length_pos.mpr hm
      have h16 : 16 ≤ m.length := by omega
      have htake : (m.take 16).length = 16 := by
        simp [List.length_take]; omega
      have hxor : (xorBytes (m.take 16) prev).length = 16 := by
        rw [length_xorBytes, htake, hprev]; simp
      set c := C.enc k (xorBytes (m.take 16) prev) with hcdef
      have hc : c.length = 16 := C.enc_len _ _ hxor
      set tail := cbcEnc C k c (m.drop 16) with htaildef
      rw [cbcEnc_ne_nil C k prev m hm, ← hcdef, ← htaildef]
      have hne : c ++ tail ≠ [] := by
        intro habs
        have : (c ++ tail).length = 0 := by rw [habs]; rfl
        rw [List.length_append, hc] at this
        omega
      rw [cbcDec_ne_nil C k prev (c ++ tail) hne]
      have htk : (c ++ tail).take 16 = c := by
        rw [List.take_append_of_le_length (by omega)]
        rw [← hc, List.take_length]
      have hdr : (c ++ tail).drop 16 = tail := by
        rw [List.drop_append_of_le_length (by omega)]
        rw [← hc, List.drop_length]
        rfl
      rw [htk, hdr]
      rw [hcdef, C.dec_enc k _ hxor]
      rw [xorBytes_cancel _ _ (by omega)]
      have hrec : cbcDec C k c tail = m.drop 16 := by
        rw [htaildef]
        apply ih (m.drop 16).length _ _ c rfl hc
        · simp [List.length_drop]; omega
        · simp [List.length_drop]; omega
      rw [hrec]
      exact List.take_append_drop 16 m

theorem take_append_exact (a b : Bytes) (n : Nat) (h : a.length = n) :
    (a ++ b).take n = a := by
  rw [List.take_append_of_le_length (by omega), ← h, List.take_length]

theorem drop_append_exact (a b : Bytes) (n : Nat) (h : a.length = n) :
    (a ++ b).drop n = b := by
  rw [List.drop_append_of_le_length (by omega), ← h, List.drop_length]
  rfl

theorem paddingLength_pos (data : Bytes) : 1 ≤ paddingLength data := by
  have : data.length % 16 < 16 := Nat.mod_lt _ (by omega)
  unfold paddingLength
  omega

theorem paddingLength_le (data : Bytes) : paddingLength data ≤ 16 := by
  unfold paddingLength
  omega

theorem pkcs7pad_length (data : Bytes) :
    (pkcs7pad data).length = data.length + paddingLength data := by
  simp [pkcs7pad]

theorem pkcs7pad_mod (data : Bytes) : (pkcs7pad data).length % 16 = 0 := by
  rw [pkcs7pad_length]
  have : data.length % 16 < 16 := Nat.mod_lt _ (by omega)
  unfold paddingLength
  omega

theorem replicate_eq_concat (n x : Nat) (h : 1 ≤ n) :
    List.replicate n x = List.replicate (n - 1) x ++ [x] := by
  conv_lhs => rw [show n = (n - 1) + 1 from by omega]
  rw [List.replicate_succ']

theorem pkcs7pad_getLast (data : Bytes) :
    (pkcs7pad data).getLast? = some (paddingLength data) := by
  rw [pkcs7pad,
    replicate_eq_concat (paddingLength data) (paddingLength data) (paddingLength_pos data),
    ← List.append_assoc]
  exact List.getLast?_concat _

theorem sliceToNeg_pkcs7pad (data : Bytes) :
    sliceToNeg (pkcs7pad data) (paddingLength data) = data := by
  have h1 : 1 ≤ paddingLength data := paddingLength_pos data
  rw [sliceToNeg, if_neg (by omega)]
  rw [pkcs7pad_length]
  rw [show data.length + paddingLength data - paddingLength data = data.length from by omega]
  rw [pkcs7pad]
  exact take_append_exact _ _ _ rfl

/-- Core round-trip fact, shared by the round-trip and non-determinism
claims: decrypting an encryption of any buffer with the matching key
recovers the buffer, provided the drawn AES key has 32 bytes and the
drawn IV has 16, as os.urandom guarantees in the source. -/
theorem decrypt_encrypt_core (K : RSAKeypair) (C : BlockCipher)
    (aes_key iv oaep_seed data : Bytes)
    (hk : aes_key.length = 32) (hiv : iv.length = 16) :
    decrypt_bytes K C (encrypt_bytes K C aes_key iv oaep_seed data) = some data := by
  have hpadmod : (pkcs7pad data).length % 16 = 0 := pkcs7pad_mod data
  show decrypt_bytes K C
      (K.wrap aes_key oaep_seed ++ iv ++ cbcEnc C aes_key iv (pkcs7pad data)) = some data
  set w := K.wrap aes_key oaep_seed with hwdef
  set ct := cbcEnc C aes_key iv (pkcs7pad data) with hctdef
  have hw : w.length = K.keyBits / 8 := K.wrap_length _ _
  have e1 : (w ++ (iv ++ ct)).take (K.keyBits / 8) = w := take_append_exact _ _ _ hw
  have e2 : (w ++ (iv ++ ct)).drop (K.keyBits / 8) = iv ++ ct := drop_append_exact _ _ _ hw
  have e3 : (iv ++ ct).take 16 = iv := take_append_exact _ _ _ hiv
  have e4 : (w ++ (iv ++ ct)).drop (K.keyBits / 8 + 16) = ct := by
    rw [← List.append_assoc]
    exact drop_append_exact _ _ _ (by rw [List.length_append, hw, hiv])
  have e5 : ct.length % 16 = 0 := by
    rw [hctdef, cbcEnc_length C aes_key (pkcs7pad data).length _ iv rfl hiv hpadmod]
    exact hpadmod
  have e6 : cbcDec C aes_key iv ct = pkcs7pad data := by
    rw [hctdef]
    exact cbcDec_cbcEnc C aes_key (pkcs7pad data).length _ iv rfl hiv hpadmod
  rw [List.append_assoc]
  simp only [decrypt_bytes, e1, e2, e3, e4, K.unwrap_wrap _ _ hk, hk, hiv, e5, e6,
    pkcs7pad_getLast, sliceToNeg_pkcs7pad]
  norm_num

/-- Shape of the wire payload produced by encrypt_bytes: the take/drop
slices that decrypt_bytes computes with key_size = keyBits // 8 recover
the wrapped AES key, the IV and the AES ciphertext, in that order. -/
theorem encrypt_components (K : RSAKeypair) (C : BlockCipher)
    (aes_key iv oaep_seed data : Bytes) (hiv : iv.length = 16) :
    (encrypt_bytes K C aes_key iv oaep_seed data).take (K.keyBits / 8) =
        K.wrap aes_key oaep_seed ∧
      ((encrypt_bytes K C aes_key iv oaep_seed data).drop (K.keyBits / 8)).take 16 = iv ∧
      (encrypt_bytes K C aes_key iv oaep_seed data).drop (K.keyBits / 8 + 16) =
        cbcEnc C aes_key iv (pkcs7pad data) := by
  have hw : (K.wrap aes_key oaep_seed).length = K.keyBits / 8 := K.wrap_length _ _
  refine ⟨?_, ?_, ?_⟩
  · show (K.wrap aes_key oaep_seed ++ iv ++ cbcEnc C aes_key iv (pkcs7pad data)).take
        (K.keyBits / 8) = K.wrap aes_key oaep_seed
    rw [List.append_assoc]
    exact take_append_exact _ _ _ hw
  · show ((K.wrap aes_key oaep_seed ++ iv ++ cbcEnc C aes_key iv (pkcs7pad data)).drop
        (K.keyBits / 8)).take 16 = iv
    rw [List.append_assoc, drop_append_exact _ _ _ hw]
    exact take_append_exact _ _ _ hiv
  · show (K.wrap aes_key oaep_seed ++ iv ++ cbcEnc C aes_key iv (pkcs7pad data)).drop
        (K.keyBits / 8 + 16) = cbcEnc C aes_key iv (pkcs7pad data)
    exact drop_append_exact _ _ _ (by rw [List.length_append, hw, hiv])

/-- Reduction of decrypt_bytes on a payload split as wrapped key, IV and
block-aligned ciphertext, when OAEP unwrapping succeeds with a legal AES
key size: the result is the unvalidated padding strip of the CBC
decryption. -/
theorem decrypt_bytes_eq (K : RSAKeypair) (C : BlockCipher) (w iv ct k : Bytes)
    (hw : w.length = K.keyBits / 8)
    (hunwrap : K.unwrap w = some k)
    (hklen : k.length = 16 ∨ k.length = 24 ∨ k.length = 32)
    (hiv : iv.length = 16) (hct : ct.length % 16 = 0) :
    decrypt_bytes K C (w ++ iv ++ ct) =
      match (cbcDec C k iv ct).getLast? with
      | none => none
      | some n => some (sliceToNeg (cbcDec C k iv ct) n) := by
  have e1 : (w ++ (iv ++ ct)).take (K.keyBits / 8) = w := take_append_exact _ _ _ hw
  have e2 : (w ++ (iv ++ ct)).drop (K.keyBits / 8) = iv ++ ct := drop_append_exact _ _ _ hw
  have e3 : (iv ++ ct).take 16 = iv := take_append_exact _ _ _ hiv
  have e4 : (w ++ (iv ++ ct)).drop (K.keyBits / 8 + 16) = ct := by
    rw [← List.append_assoc]
    exact drop_append_exact _ _ _ (by rw [List.length_append, hw, hiv])
  rw [List.append_assoc]
  simp only [decrypt_bytes, e1, e2, e3, e4, hunwrap]
  rw [if_pos hklen, if_pos hiv, if_pos hct]

/-- Concrete file system used to evaluate encrypt_file: path 0 holds a
two-byte file and no path has an existing parent directory. -/
def fsNoParent : FileSystem Nat where
  files := fun p => if p = 0 then some [1, 2] else none
  parentExists := fun _ => false

/-- Concrete file system used to evaluate encrypt_file: path 0 holds a
two-byte file and every path has an existing parent directory. -/
def fsWithParent : FileSystem Nat where
  files := fun p => if p = 0 then some [1, 2] else none
  parentExists := fun _ => true

/-- The literal b"Hello, RSA encryption!" of the spec's concrete scenario
and of the repository's tests, as ASCII byte values. -/
def helloBytes : Bytes :=
  [72, 101, 108, 108, 111, 44, 32, 82, 83, 65, 32, 101, 110, 99, 114, 121,
   112, 116, 105, 111, 110, 33]

/-! Claim theorems. -/

/-- C1: for every byte buffer (including the empty buffer) and every
keypair produced by generate_rsa_keypair, decrypt_bytes applied to
encrypt_bytes of the buffer under the matching public key returns the
buffer.  The 32-byte AES key and 16-byte IV are the values os.urandom
draws during the encrypt_bytes call. -/
theorem c1_round_trip (K : RSAKeypair) (C : BlockCipher)
    (aes_key iv oaep_seed data : Bytes)
    (hk : aes_key.length = 32) (hiv : iv.length = 16) :
    decrypt_bytes K C (encrypt_bytes K C aes_key iv oaep_seed data) = some data :=
  decrypt_encrypt_core K C aes_key iv oaep_seed data hk hiv

/-- C1 witness: the round trip evaluated on the empty buffer with a
concrete keypair, cipher, AES key and IV. -/
theorem c1_round_trip_witness :
    (List.replicate 32 7 : Bytes).length = 32 ∧
      (List.replicate 16 9 : Bytes).length = 16 ∧
      decrypt_bytes testKey idCipher
          (encrypt_bytes testKey idCipher (List.replicate 32 7) (List.replicate 16 9) [] []) =
        some [] :=
  ⟨by decide, by decide,
    c1_round_trip testKey idCipher (List.replicate 32 7) (List.replicate 16 9) [] []
      (by decide) (by decide)⟩

/-- C3: encrypt_bytes pads its input with N bytes of value
N = 16 - (len(data) mod 16) before AES-CBC; N is always in [1, 16], a
full extra block (N = 16) is appended whenever the length is already a
multiple of 16, and the empty plaintext pads to one 16-byte block of
value 0x10 repeated. -/
theorem c3_pkcs7_padding (K : RSAKeypair) (C : BlockCipher)
    (aes_key iv oaep_seed data : Bytes) :
    encrypt_bytes K C aes_key iv oaep_seed data =
        K.wrap aes_key oaep_seed ++ iv ++
          cbcEnc C aes_key iv
            (data ++ List.replicate (16 - data.length % 16) (16 - data.length % 16)) ∧
      1 ≤ 16 - data.length % 16 ∧
      16 - data.length % 16 ≤ 16 ∧
      (data.length % 16 = 0 → 16 - data.length % 16 = 16) ∧
      (pkcs7pad data).length % 16 = 0 ∧
      pkcs7pad [] = List.replicate 16 16 := by
  refine ⟨rfl, paddingLength_pos data, paddingLength_le data, ?_, pkcs7pad_mod data, by decide⟩
  intro h
  omega

/-- C3 witness: the block-aligned case discharged on the empty buffer,
where the padding amount is a full block of 16. -/
theorem c3_pkcs7_padding_witness :
    ([] : Bytes).length % 16 = 0 ∧ 16 - ([] : Bytes).length % 16 = 16 :=
  ⟨rfl, (c3_pkcs7_padding testKey idCipher [] [] [] []).2.2.2.1 rfl⟩

/-- C4: for a 2048-bit keypair the wire payload length is
256 + 16 + (len(data) - len(data) % 16 + 16): the 256-byte wrapped key,
the 16-byte IV, and the padded plaintext rounded up to the next full
block. -/
theorem c4_size_law (K : RSAKeypair) (C : BlockCipher)
    (aes_key iv oaep_seed data : Bytes)
    (h2048 : K.keyBits = 2048) (hiv : iv.length = 16) :
    (encrypt_bytes K C aes_key iv oaep_seed data).length =
      256 + 16 + (data.length - data.length % 16 + 16) := by
  show (K.wrap aes_key oaep_seed ++ iv ++ cbcEnc C aes_key iv (pkcs7pad data)).length = _
  rw [List.length_append, List.length_append, K.wrap_length, hiv,
    cbcEnc_length C aes_key (pkcs7pad data).length _ iv rfl hiv (pkcs7pad_mod data),
    pkcs7pad_length, h2048]
  have hlt : data.length % 16 < 16 := Nat.mod_lt _ (by omega)
  have hle : data.length % 16 ≤ data.length := Nat.mod_le _ _
  unfold paddingLength
  omega

/-- C4 witness: the 22-byte literal b"Hello, RSA encryption!" encrypts to
exactly 304 = 256 + 16 + 32 bytes. -/
theorem c4_size_law_witness :
    testKey.keyBits = 2048 ∧ (List.replicate 16 9 : Bytes).length = 16 ∧
      (encrypt_bytes testKey idCipher (List.replicate 32 7) (List.replicate 16 9) []
        helloBytes).length = 304 :=
  ⟨rfl, by decide, by
    rw [c4_size_law testKey idCipher (List.replicate 32 7) (List.replicate 16 9) []
      helloBytes rfl (by decide)]
    decide⟩

/-- C5: decrypt_bytes splits the wire payload with
key_size = private key modulus bits // 8 derived from the key alone —
the slices it takes are payload[:key_size], payload[key_size:key_size+16]
and payload[key_size+16:] — and on an encrypt_bytes payload these slices
recover the RSA-wrapped AES key, the IV and the AES ciphertext, matching
the concatenation order of encrypt_bytes. -/
theorem c5_wire_split (K : RSAKeypair) (C : BlockCipher)
    (aes_key iv oaep_seed data : Bytes) (hiv : iv.length = 16) :
    (encrypt_bytes K C aes_key iv oaep_seed data).take (K.keyBits / 8) =
        K.wrap aes_key oaep_seed ∧
      ((encrypt_bytes K C aes_key iv oaep_seed data).drop (K.keyBits / 8)).take 16 = iv ∧
      (encrypt_bytes K C aes_key iv oaep_seed data).drop (K.keyBits / 8 + 16) =
        cbcEnc C aes_key iv (pkcs7pad data) :=
  encrypt_components K C aes_key iv oaep_seed data hiv

/-- C5 witness: the split evaluated on a concrete three-byte payload. -/
theorem c5_wire_split_witness :
    (List.replicate 16 9 : Bytes).length = 16 ∧
      ((encrypt_bytes testKey idCipher (List.replicate 32 7) (List.replicate 16 9) []
          [1, 2, 3]).take (testKey.keyBits / 8) =
          testKey.wrap (List.replicate 32 7) [] ∧
        ((encrypt_bytes testKey idCipher (List.replicate 32 7) (List.replicate 16 9) []
            [1, 2, 3]).drop (testKey.keyBits / 8)).take 16 = List.replicate 16 9 ∧
        (encrypt_bytes testKey idCipher (List.replicate 32 7) (List.replicate 16 9) []
            [1, 2, 3]).drop (testKey.keyBits / 8 + 16) =
          cbcEnc idCipher (List.replicate 32 7) (List.replicate 16 9) (pkcs7pad [1, 2, 3])) :=
  ⟨by decide,
    c5_wire_split testKey idCipher (List.replicate 32 7) (List.replicate 16 9) [] [1, 2, 3]
      (by decide)⟩

/-- C2 counterexample: a 288-byte wire payload whose AES-CBC decryption
ends in the byte 17 — a padding length outside [1, 16], so the claim
demands an InvalidPadding failure — is not rejected by decrypt_bytes: it
returns a plaintext (the empty byte string, from the slice [:-17] of a
16-byte buffer). -/
theorem c2_counterexample :
    (cbcDec idCipher (List.replicate 32 0) (List.replicate 16 0)
        (List.replicate 15 0 ++ [17])).getLast? = some 17 ∧
      decrypt_bytes testKey idCipher
          (List.replicate 256 0 ++ List.replicate 16 0 ++ (List.replicate 15 0 ++ [17])) =
        some [] := by
  constructor
  · decide
  · decide

/-- C2 amended: when decrypt_bytes strips PKCS#7 padding it reads the last
byte of the AES-decrypted data as the padding length N and unconditionally
returns all bytes except the trailing N (the Python slice [:-N], empty
when N = 0 or N ≥ the length); no range check and no check that the last
N bytes equal N is performed, and no InvalidPadding failure exists. -/
theorem c2_strip_no_validation (K : RSAKeypair) (C : BlockCipher)
    (w iv ct k : Bytes) (N : Nat)
    (hw : w.length = K.keyBits / 8)
    (hunwrap : K.unwrap w = some k)
    (hklen : k.length = 16 ∨ k.length = 24 ∨ k.length = 32)
    (hiv : iv.length = 16) (hct : ct.length % 16 = 0)
    (hlast : (cbcDec C k iv ct).getLast? = some N) :
    decrypt_bytes K C (w ++ iv ++ ct) = some (sliceToNeg (cbcDec C k iv ct) N) := by
  rw [decrypt_bytes_eq K C w iv ct k hw hunwrap hklen hiv hct, hlast]

/-- C2 amended witness: a payload whose decrypted data ends in 5 although
the preceding byte is 1 — invalid PKCS#7 padding — still yields a
plaintext, namely the first 11 bytes. -/
theorem c2_strip_no_validation_witness :
    (cbcDec idCipher (List.replicate 32 0) (List.replicate 16 0)
        (List.replicate 14 0 ++ [1, 5])).getLast? = some 5 ∧
      decrypt_bytes testKey idCipher
          (List.replicate 256 0 ++ List.replicate 16 0 ++ (List.replicate 14 0 ++ [1, 5])) =
        some (sliceToNeg (cbcDec idCipher (List.replicate 32 0) (List.replicate 16 0)
          (List.replicate 14 0 ++ [1, 5])) 5) :=
  ⟨by decide,
    c2_strip_no_validation testKey idCipher (List.replicate 256 0) (List.replicate 16 0)
      (List.replicate 14 0 ++ [1, 5]) (List.replicate 32 0) 5
      (by decide) (by decide) (by decide) (by decide) (by decide) (by decide)⟩

/-- C6: two encrypt_bytes calls on the same buffer under the same public
key, each with its own freshly drawn 32-byte AES key and 16-byte IV,
produce different wire payloads whenever the drawn (key, IV) pairs
differ, and decrypt_bytes maps both payloads back to the original
buffer. -/
theorem c6_nondeterminism (K : RSAKeypair) (C : BlockCipher)
    (data k1 iv1 s1 k2 iv2 s2 : Bytes)
    (hk1 : k1.length = 32) (hk2 : k2.length = 32)
    (hiv1 : iv1.length = 16) (hiv2 : iv2.length = 16)
    (hne : ¬ (k1 = k2 ∧ iv1 = iv2)) :
    encrypt_bytes K C k1 iv1 s1 data ≠ encrypt_bytes K C k2 iv2 s2 data ∧
      decrypt_bytes K C (encrypt_bytes K C k1 iv1 s1 data) = some data ∧
      decrypt_bytes K C (encrypt_bytes K C k2 iv2 s2 data) = some data := by
  refine ⟨?_, decrypt_encrypt_core K C k1 iv1 s1 data hk1 hiv1,
    decrypt_encrypt_core K C k2 iv2 s2 data hk2 hiv2⟩
  intro heq
  apply hne
  have comp1 := encrypt_components K C k1 iv1 s1 data hiv1
  have comp2 := encrypt_components K C k2 iv2 s2 data hiv2
  have hkeyeq : K.wrap k1 s1 = K.wrap k2 s2 := by
    rw [← comp1.1, ← comp2.1, heq]
  have hksame : k1 = k2 := by
    have h1 := K.unwrap_wrap k1 s1 hk1
    have h2 := K.unwrap_wrap k2 s2 hk2
    rw [hkeyeq, h2] at h1
    exact (Option.some_inj.mp h1).symm
  have hivsame : iv1 = iv2 := by
    rw [← comp1.2.1, ← comp2.2.1, heq]
  exact ⟨hksame, hivsame⟩

/-- C6 witness: two concrete calls whose drawn AES keys differ produce
different 304-byte payloads that both decrypt to the original buffer. -/
theorem c6_nondeterminism_witness :
    (List.replicate 32 7 : Bytes).length = 32 ∧
      (List.replicate 32 8 : Bytes).length = 32 ∧
      (List.replicate 16 9 : Bytes).length = 16 ∧
      ¬ ((List.replicate 32 7 : Bytes) = List.replicate 32 8 ∧
        (List.replicate 16 9 : Bytes) = List.replicate 16 9) ∧
      (encrypt_bytes testKey idCipher (List.replicate 32 7) (List.replicate 16 9) [] [1, 2] ≠
          encrypt_bytes testKey idCipher (List.replicate 32 8) (List.replicate 16 9) [] [1, 2] ∧
        decrypt_bytes testKey idCipher
            (encrypt_bytes testKey idCipher (List.replicate 32 7) (List.replicate 16 9) []
              [1, 2]) = some [1, 2] ∧
        decrypt_bytes testKey idCipher
            (encrypt_bytes testKey idCipher (List.replicate 32 8) (List.replicate 16 9) []
              [1, 2]) = some [1, 2]) :=
  ⟨by decide, by decide, by decide, by decide,
    c6_nondeterminism testKey idCipher [1, 2] (List.replicate 32 7) (List.replicate 16 9) []
      (List.replicate 32 8) (List.replicate 16 9) []
      (by decide) (by decide) (by decide) (by decide) (by decide)⟩

/-- C10: whenever the pipeline inside decrypt_bytes succeeds and the
AES-decrypted padded plaintext ends in the byte 0, decrypt_bytes returns
the empty byte string — the Python slice [:-0] equals [:0] — rather than
raising or stripping zero bytes. -/
theorem c10_zero_pad_returns_empty (K : RSAKeypair) (C : BlockCipher)
    (w iv ct k : Bytes)
    (hw : w.length = K.keyBits / 8)
    (hunwrap : K.unwrap w = some k)
    (hklen : k.length = 16 ∨ k.length = 24 ∨ k.length = 32)
    (hiv : iv.length = 16) (hct : ct.length % 16 = 0)
    (hlast : (cbcDec C k iv ct).getLast? = some 0) :
    decrypt_bytes K C (w ++ iv ++ ct) = some [] := by
  rw [decrypt_bytes_eq K C w iv ct k hw hunwrap hklen hiv hct, hlast]
  simp [sliceToNeg]

/-- C10 witness: an all-zero 16-byte ciphertext block decrypts (under the
concrete cipher) to data ending in 0, and decrypt_bytes returns the empty
byte string. -/
theorem c10_zero_pad_returns_empty_witness :
    (cbcDec idCipher (List.replicate 32 0) (List.replicate 16 0)
        (List.replicate 16 0)).getLast? = some 0 ∧
      decrypt_bytes testKey idCipher
          (List.replicate 256 0 ++ List.replicate 16 0 ++ List.replicate 16 0) = some [] :=
  ⟨by decide,
    c10_zero_pad_returns_empty testKey idCipher (List.replicate 256 0) (List.replicate 16 0)
      (List.replicate 16 0) (List.replicate 32 0)
      (by decide) (by decide) (by decide) (by decide) (by decide) (by decide)⟩

/-- C7: _ensure_bytes returns a raw bytes payload unchanged, serializes a
PIL image losslessly as PNG (loading the saved bytes recovers the image),
and raises TypeError for every payload that is neither bytes nor an
image. -/
theorem c7_ensure_bytes {Img Other : Type} (L : PILModel Img) :
    (∀ b : Bytes, ensure_bytes L (PyPayload.raw b : PyPayload Img Other) = Except.ok b) ∧
      (∀ i : Img,
        ensure_bytes L (PyPayload.image i : PyPayload Img Other) = Except.ok (L.pngSave i) ∧
          L.pngLoad (L.pngSave i) = some i) ∧
      (∀ o : Other,
        ensure_bytes L (PyPayload.other o : PyPayload Img Other) =
          Except.error PyExn.typeError) :=
  ⟨fun _ => rfl, fun i => ⟨rfl, L.load_save i⟩, fun _ => rfl⟩

/-- C8 counterexample: with a readable input file at path 0 and an output
path 1 whose parent directory does not exist, encrypt_file fails — the
open(out_path, "wb") raises FileNotFoundError — instead of creating the
missing directory and writing, as the claim requires. -/
theorem c8_counterexample :
    fsNoParent.files 0 = some [1, 2] ∧
      fsNoParent.parentExists 1 = false ∧
      encrypt_file testKey idCipher (List.replicate 32 7) (List.replicate 16 9) []
        fsNoParent 0 1 = none :=
  ⟨rfl, rfl, rfl⟩

/-- C8 amended: encrypt_file reads the entire input file into memory,
encrypts its contents with encrypt_bytes, and writes the result to the
output path leaving every other file unchanged — provided the output
path's parent directory already exists; missing parent directories are
not created (the write fails instead). -/
theorem c8_encrypt_file {P : Type} [DecidableEq P] (K : RSAKeypair) (C : BlockCipher)
    (aes_key iv oaep_seed : Bytes) (fs : FileSystem P) (in_path out_path : P)
    (data : Bytes) (hread : fs.files in_path = some data)
    (hdir : fs.parentExists out_path = true) :
    ∃ fs2 : FileSystem P,
      encrypt_file K C aes_key iv oaep_seed fs in_path out_path = some fs2 ∧
        fs2.files out_path = some (encrypt_bytes K C aes_key iv oaep_seed data) ∧
        (∀ q : P, q ≠ out_path → fs2.files q = fs.files q) ∧
        fs2.parentExists = fs.parentExists := by
  refine ⟨FileSystem.mk
      (fun q => if q = out_path then some (encrypt_bytes K C aes_key iv oaep_seed data)
        else fs.files q)
      fs.parentExists, ?_, ?_, ?_, rfl⟩
  · simp only [encrypt_file, hread, pyWriteFile, hdir, if_true]
  · simp
  · intro q hq
    simp [hq]

/-- C8 amended witness: on a concrete file system whose directories all
exist, encrypt_file writes the encryption of the two-byte input file. -/
theorem c8_encrypt_file_witness :
    fsWithParent.files 0 = some [1, 2] ∧
      fsWithParent.parentExists 1 = true ∧
      ∃ fs2 : FileSystem Nat,
        encrypt_file testKey idCipher (List.replicate 32 7) (List.replicate 16 9) []
            fsWithParent 0 1 = some fs2 ∧
          fs2.files 1 = some (encrypt_bytes testKey idCipher (List.replicate 32 7)
            (List.replicate 16 9) [] [1, 2]) ∧
          (∀ q : Nat, q ≠ 1 → fs2.files q = fsWithParent.files q) ∧
          fs2.parentExists = fsWithParent.parentExists :=
  ⟨rfl, rfl,
    c8_encrypt_file testKey idCipher (List.replicate 32 7) (List.replicate 16 9) []
      fsWithParent 0 1 [1, 2] rfl rfl⟩

/-- C9: generate_rsa_keypair generates the private key with the fixed
public exponent 65537 and the requested size, and returns exactly the
pair (private key as PKCS8 PEM without passphrase encryption, public key
as SubjectPublicKeyInfo PEM), in that order. -/
theorem c9_keypair_generation {Priv Pub : Type} (L : RSASerialization Priv Pub)
    (key_size : Nat) :
    generate_rsa_keypair L key_size =
      (L.privateBytes (L.generatePrivateKey 65537 key_size) Encoding.PEM
          PrivateFormat.PKCS8 KeyEncryption.NoEncryption,
        L.publicBytes (L.publicKey (L.generatePrivateKey 65537 key_size)) Encoding.PEM
          PublicFormat.SubjectPublicKeyInfo) := rfl

end RsaEncrypt
